import Mathlib

/-!
Verification of the secret-document core of doggo-cli (`lib/dog-tag.js`).

The embedding models tag strings as lists of characters, documents as plain
records, and the Automerge replication engine (an external collaborator of the
repository) as a history-appending transaction primitive.  Interactive
prompts are modelled by passing the user's responses as parameters and by
recording, in the returned run value, which prompts were reached and how many
transactions were applied.
-/

namespace DogTag

/-- Tag strings are modelled as lists of characters so that the splitting and
joining functions can be reasoned about character by character. -/
abbrev Str := List Char

/-- Character class of the separator regex of
`internals.getTagsFromString` (line 300): whitespace or a comma. -/
def isSep (c : Char) : Bool := c.isWhitespace || c == ','

/-- Implementation of `internals.slugifyTags` (line 298):
`(tags) => tags.join(', ')`, the JS array join with separator `", "`. -/
def slugifyTags : List Str → Str
  | [] => []
  | [t] => t
  | t :: t2 :: ts => t ++ ',' :: ' ' :: slugifyTags (t2 :: ts)

/-- Helper bound used for the termination of the split scanner. -/
theorem len_dropWhile_le (p : α → Bool) : ∀ l : List α, (l.dropWhile p).length ≤ l.length
  | [] => Nat.le_refl _
  | a :: l => by
    rw [List.dropWhile_cons]
    split
    · exact Nat.le_succ_of_le (len_dropWhile_le p l)
    · exact Nat.le_refl _

/-- Scanner realizing the JS semantics of `str.split(/[\s,]+/g)`: `acc` holds
the characters of the current field in reverse.  Hitting a separator emits the
current field and skips the whole separator run; the end of the input emits
the current field.  Hence a leading or trailing separator run yields an empty
field at the corresponding end, and the empty string yields one empty field,
exactly as in JS. -/
def splitSepAux (acc : Str) : Str → List Str
  | [] => [acc.reverse]
  | c :: rest =>
    if isSep c then acc.reverse :: splitSepAux [] (rest.dropWhile isSep)
    else splitSepAux (c :: acc) rest
termination_by s => s.length
decreasing_by
  · exact Nat.lt_succ_of_le (len_dropWhile_le isSep rest)
  · exact Nat.lt_succ_self _

/-- Implementation of `internals.getTagsFromString` (line 300):
`(str) => str.split(/[\s,]+/g)`. -/
def getTagsFromString (s : Str) : List Str := splitSepAux [] s

/-- A Secret Entry as pushed by `exports.add` (line 68):
`{ tags, secret, id }`. -/
structure Entry where
  tags : List Str
  secret : Str
  id : Str
deriving DecidableEq

/-- Field set collected by the update form.  The choices are
`Object.entries(toUpdate).filter(([key]) => key !== 'id' && key !== 'isDoggo')`
(line 146), so the form presents exactly `tags` and `secret` and can never
return a value for `id`; the optional `id?` field is kept so that
`Object.assign` can be modelled on arbitrary field sets, making the absence
of an `id` value explicit. -/
structure EntryPatch where
  tags? : Option (List Str)
  secret? : Option Str
  id? : Option Str
deriving DecidableEq

/-- JS `Object.assign({}, orig, patch)` restricted to the fixed key set of a
Secret Entry: every field present in the patch overwrites the corresponding
field of `orig`. -/
def objectAssign (orig : Entry) (p : EntryPatch) : Entry :=
  { tags := p.tags?.getD orig.tags
    secret := p.secret?.getD orig.secret
    id := p.id?.getD orig.id }

/-- Edited field set returned by the update form (lines 145-154): values for
`tags` and `secret` only, never one for `id`.  In the source the form returns
the edited tags as a single string stored as-is; the model keeps the user's
edited tag value at the tag-sequence type, since no verified property depends
on its representation. -/
def formEdited (uTags : List Str) (uSecret : Str) : EntryPatch :=
  { tags? := some uTags, secret? := some uSecret, id? := none }

/-- A Secret Document: the fields written by `exports.init` (lines 213-226)
together with the change history kept by the replication engine. -/
structure Doc where
  isDoggo : Bool
  id : Str
  version : Nat
  secrets : List Entry
  doggoVersion : Str
  updatedAt : Nat
  history : List Str
deriving DecidableEq

/-- Modelled from the spec (section 6, replication engine capability):
`change(Document, message, mutatorFn) -> Document` applies the mutator to the
current snapshot and appends one change, recorded by its message, to the
document's causal history. -/
def Automerge.change (doc : Doc) (msg : Str) (mutator : Doc → Doc) : Doc :=
  let d := mutator doc
  { d with history := doc.history ++ [msg] }

/-- Modelled from the spec (section 6): `historyLength(Document) -> integer`,
the length of the engine's change history (`Automerge.getHistory(x).length`
in the source). -/
def Automerge.historyLength (doc : Doc) : Nat := doc.history.length

/-- Version string of the doggo package (`DoggoPackage.version`, external
metadata); its value is irrelevant to every verified property. -/
def doggoPackageVersion : Str := []

/-- Implementation of `exports.init` (lines 213-226):
`Automerge.change(Automerge.init(), 'Initialize', ...)`.  `Automerge.init()`
is the engine's empty document (empty history; the field values it carries
before the initializing change are immaterial and modelled as zeroes). -/
def init (freshId : Str) (now : Nat) : Doc :=
  Automerge.change ⟨false, [], 0, [], [], 0, []⟩ "Initialize".toList fun d =>
    { d with isDoggo := true, id := freshId, version := 1, secrets := [],
             doggoVersion := doggoPackageVersion, updatedAt := now }

/-- JS `Array.prototype.findIndex`: the index of the first element satisfying
`p`, or `-1` when there is none. -/
def jsFindIndex (p : α → Bool) (l : List α) : Int :=
  match l.findIdx? p with
  | some n => (n : Int)
  | none => -1

/-- Clamping of a splice start index as in JS `Array.prototype.splice`:
a negative index counts from the end, and the result is clamped to
`[0, length]`. -/
def jsStart (len : Nat) (i : Int) : Nat :=
  if 0 ≤ i then min i.toNat len else ((len : Int) + i).toNat

/-- JS `arr.splice(i, 1)` as used by `exports.delete` (line 118): remove one
element at the clamped start index. -/
def jsSpliceRemove1 (l : List α) (i : Int) : List α :=
  l.take (jsStart l.length i) ++ l.drop (jsStart l.length i + 1)

/-- JS `arr.splice(i, 1, x)` as used by `exports.update` (line 159): replace
one element at the clamped start index by `x`. -/
def jsSpliceReplace1 (l : List α) (i : Int) (x : α) : List α :=
  l.take (jsStart l.length i) ++ x :: l.drop (jsStart l.length i + 1)

/-- Change body of `exports.add` (lines 66-71): push a new entry carrying a
fresh id, set `version` to the input document's history length plus one,
refresh `doggoVersion`.  The change message is the string
`Add '<joined tags>'`, with the quote characters elided in the model. -/
def addChange (inst : Doc) (tags : List Str) (secret : Str) (freshId : Str) : Doc :=
  Automerge.change inst ("Add ".toList ++ slugifyTags tags) fun draft =>
    { draft with
      secrets := draft.secrets ++ [⟨tags, secret, freshId⟩],
      version := Automerge.historyLength inst + 1,
      doggoVersion := doggoPackageVersion }

/-- Change body of `exports.delete` (lines 116-121): splice out the entry at
the index found by id, set `version` to the input document's history length
plus one, refresh `doggoVersion`. -/
def deleteChange (inst : Doc) (toDelete : Entry) : Doc :=
  Automerge.change inst ("Delete ".toList ++ slugifyTags toDelete.tags) fun draft =>
    { draft with
      secrets := jsSpliceRemove1 draft.secrets
        (jsFindIndex (fun item => item.id == toDelete.id) draft.secrets),
      version := Automerge.historyLength inst + 1,
      doggoVersion := doggoPackageVersion }

/-- Change body of `exports.update` (lines 157-163): splice in the merged
entry at the index found by id, set `version` to the input document's history
length plus one, refresh `doggoVersion`, set `updatedAt` to the current
time. -/
def updateChange (inst : Doc) (toUpdate : Entry) (edited : EntryPatch) (now : Nat) : Doc :=
  Automerge.change inst ("Update ".toList ++ slugifyTags toUpdate.tags) fun draft =>
    { draft with
      secrets := jsSpliceReplace1 draft.secrets
        (jsFindIndex (fun item => item.id == toUpdate.id) draft.secrets)
        (objectAssign toUpdate edited),
      version := Automerge.historyLength inst + 1,
      doggoVersion := doggoPackageVersion,
      updatedAt := now }

/-- Implementation of `internals.search` (lines 275-296) on entry lists.  The
fuzzy matcher (Fuse.js) is external to the repository and is passed as the
parameter `fuse`, producing the ranked candidate list.  The two
post-processing branches of the source are identities on entry lists: entries
never parse as numbers (and on an empty result both sides are empty), and the
call sites modelled here pass no `id` option. -/
def search (fuse : List Entry → Str → List Entry) (list : List Entry) (q : Str) :
    List Entry :=
  fuse list q

/-- Implementation of `internals.getSingleFromList` (lines 244-273).
`choose` is the user's response to the select prompt, given the presented
choices.  Returns the resolved entry (`none` when the search found nothing or
the selection matched no entry) together with the choices presented by the
select prompt (`none` when no prompt was shown).  The unwrapping of
`{ output }` results by `Helpers.withErrHandling` is inlined. -/
def getSingleFromList (fuse : List Entry → Str → List Entry)
    (list : List Entry) (q : Str) (choose : List Str → Str) :
    Option Entry × Option (List Str) :=
  let results := search fuse list q
  if 1 < results.length then
    let joinedTags := results.map fun r => slugifyTags r.tags
    let chosenResult := choose joinedTags
    (list.find? fun item => chosenResult == slugifyTags item.tags, some joinedTags)
  else
    (results.head?, none)

/-- Returned value of a delete invocation: either an `{ error }` message or
the `{ output }` document. -/
inductive DeleteResult where
  | error (msg : String) : DeleteResult
  | output (doc : Doc) : DeleteResult
deriving DecidableEq

/-- Observable run of `exports.delete`: the returned value, how many of the
two confirmation prompts were reached, and how many `Automerge.change`
transactions were applied. -/
structure DeleteRun where
  result : DeleteResult
  confirmsAsked : Nat
  changesApplied : Nat
deriving DecidableEq

/-- Implementation of `exports.delete` (lines 81-129) after loading succeeds:
resolve the target from `inst.secrets`, then run the two-stage confirmation
(`areYouSure`, then `areYouReallySure`); declining either stage returns
`Delete cancelled` without applying a transaction; only after both
affirmatives is the delete change body applied, once. -/
def delete (inst : Doc) (fuse : List Entry → Str → List Entry) (q : Str)
    (choose : List Str → Str) (areYouSure areYouReallySure : Bool) : DeleteRun :=
  match (getSingleFromList fuse inst.secrets q choose).1 with
  | none => ⟨.error "No result found for search", 0, 0⟩
  | some toDelete =>
    if !areYouSure then ⟨.error "Delete cancelled", 1, 0⟩
    else if !areYouReallySure then ⟨.error "Delete cancelled", 2, 0⟩
    else ⟨.output (deleteChange inst toDelete), 2, 1⟩

/-- Returned value of an update invocation: either the `{ output }` message
used for the not-found outcome or the `{ output }` document. -/
inductive UpdateResult where
  | outputMsg (msg : String) : UpdateResult
  | output (doc : Doc) : UpdateResult
deriving DecidableEq

/-- Observable run of `exports.update`: the returned value and how many
`Automerge.change` transactions were applied. -/
structure UpdateRun where
  result : UpdateResult
  changesApplied : Nat
deriving DecidableEq

/-- Implementation of `exports.update` (lines 131-171) after loading
succeeds: resolve the target; when nothing is found return the message
`No result found for search` as an ordinary output value; otherwise collect
the edited fields from the form (every key except `id` and `isDoggo`) and
apply the update change body, once. -/
def update (inst : Doc) (fuse : List Entry → Str → List Entry) (q : Str)
    (choose : List Str → Str) (uTags : List Str) (uSecret : Str) (now : Nat) :
    UpdateRun :=
  match (getSingleFromList fuse inst.secrets q choose).1 with
  | none => ⟨.outputMsg "No result found for search", 0⟩
  | some toUpdate =>
    ⟨.output (updateChange inst toUpdate (formEdited uTags uSecret) now), 1⟩

/-- Implementation of `exports.add` (lines 49-79) after loading succeeds:
split the prompted tag string and apply the add change body, once. -/
def add (inst : Doc) (tagsInput : Str) (secret : Str) (freshId : Str) : Doc :=
  addChange inst (getTagsFromString tagsInput) secret freshId

/-- Implementation of `exports.list` (lines 28-47) after loading succeeds:
return the secrets, narrowed through `internals.search` when a query is
given.  The second component counts the applied `Automerge.change`
transactions: a list invocation applies none. -/
def list (inst : Doc) (fuse : List Entry → Str → List Entry) (q : Option Str) :
    List Entry × Nat :=
  match q with
  | none => (inst.secrets, 0)
  | some s => (search fuse inst.secrets s, 0)

/-- Documents reachable in a single lineage: the initialized document
followed by any sequence of committed add, update or delete transactions. -/
inductive InLineage : Doc → Prop where
  | ofInit (freshId : Str) (now : Nat) : InLineage (init freshId now)
  | ofAdd {d : Doc} (tags : List Str) (secret : Str) (freshId : Str) :
      InLineage d → InLineage (addChange d tags secret freshId)
  | ofDelete {d : Doc} (e : Entry) : InLineage d → InLineage (deleteChange d e)
  | ofUpdate {d : Doc} (e : Entry) (p : EntryPatch) (now : Nat) :
      InLineage d → InLineage (updateChange d e p now)

/-- Sample entry used to evaluate the theorems on concrete inputs. -/
def sampleE1 : Entry := ⟨[['a']], ['s'], ['1']⟩

/-- Sample entry with the same tags as `sampleE1` but a different id. -/
def sampleE2 : Entry := ⟨[['a']], ['s'], ['2']⟩

/-- Sample entry with tags distinct from `sampleE1`. -/
def sampleE3 : Entry := ⟨[['b'], ['c']], ['t'], ['3']⟩

/-- Sample document holding one secret. -/
def sampleDoc1 : Doc := ⟨true, ['d'], 1, [sampleE1], [], 5, ["Initialize".toList]⟩

/-- Sample document holding two secrets with distinct tags. -/
def sampleDoc2 : Doc := ⟨true, ['d'], 1, [sampleE1, sampleE3], [], 5, ["Initialize".toList]⟩

/-- Sample fuzzy matcher that ranks every entry as a candidate. -/
def fuseAll : List Entry → Str → List Entry := fun l _ => l

/-- Sample fuzzy matcher that finds no candidates. -/
def fuseNone : List Entry → Str → List Entry := fun _ _ => []

/-- Sample selection response picking the first presented choice. -/
def chooseFirst : List Str → Str := fun cs => cs.headD []

/-- Sample selection response picking the last presented choice. -/
def chooseLast : List Str → Str := fun cs => cs.getLastD []

end DogTag

namespace DogTag

/-! Helper lemmas shared by the claim theorems. -/

/-- Lineage invariant: the display version counter of every document in a
single lineage equals the engine's history length. -/
theorem version_eq_historyLength {d : Doc} (h : InLineage d) :
    d.version = d.history.length := by
  induction h with
  | ofInit freshId now => rfl
  | ofAdd tags secret freshId _ _ =>
    simp [addChange, Automerge.change, Automerge.historyLength]
  | ofDelete e _ _ =>
    simp [deleteChange, Automerge.change, Automerge.historyLength]
  | ofUpdate e p now _ _ =>
    simp [updateChange, Automerge.change, Automerge.historyLength]

/-- C1: for every delete invocation whose search locates a target entry,
declining the first confirmation yields `Delete cancelled` with the second
prompt never reached and no transaction applied; accepting the first but
declining the second yields `Delete cancelled` with no transaction applied;
and only when both prompts are answered affirmatively is the delete change
body applied, exactly once. -/
theorem c1_two_stage_delete_confirmation
    (inst : Doc) (fuse : List Entry → Str → List Entry) (q : Str)
    (choose : List Str → Str) (e : Entry)
    (hfound : (getSingleFromList fuse inst.secrets q choose).1 = some e) :
    (∀ b, delete inst fuse q choose false b =
      ⟨.error "Delete cancelled", 1, 0⟩) ∧
    delete inst fuse q choose true false = ⟨.error "Delete cancelled", 2, 0⟩ ∧
    delete inst fuse q choose true true =
      ⟨.output (deleteChange inst e), 2, 1⟩ ∧
    ∀ a b : Bool, (delete inst fuse q choose a b).changesApplied ≠ 0 →
      a = true ∧ b = true := by
  refine ⟨fun b => ?_, ?_, ?_, fun a b hab => ?_⟩
  · simp [delete, hfound]
  · simp [delete, hfound]
  · simp [delete, hfound]
  · cases a <;> cases b <;> simp_all [delete, hfound]

/-- Witness for C1 at a concrete document, matcher and prompt responses. -/
theorem c1_witness :
    delete sampleDoc1 fuseAll [] chooseFirst false true =
      ⟨.error "Delete cancelled", 1, 0⟩ ∧
    delete sampleDoc1 fuseAll [] chooseFirst true false =
      ⟨.error "Delete cancelled", 2, 0⟩ ∧
    delete sampleDoc1 fuseAll [] chooseFirst true true =
      ⟨.output (deleteChange sampleDoc1 sampleE1), 2, 1⟩ := by
  have h := c1_two_stage_delete_confirmation sampleDoc1 fuseAll [] chooseFirst
    sampleE1 (by decide)
  exact ⟨h.1 true, h.2.1, h.2.2.1⟩

/-- C2: when the search yields zero candidates, delete and update both signal
the not-found outcome as an ordinary returned value (an `{ error }` message
for delete, an `{ output }` message for update, never a thrown exception) and
apply no transaction. -/
theorem c2_not_found_is_a_result
    (inst : Doc) (fuse : List Entry → Str → List Entry) (q : Str)
    (choose : List Str → Str) (a b : Bool) (uTags : List Str) (uSecret : Str)
    (now : Nat) (hzero : fuse inst.secrets q = []) :
    delete inst fuse q choose a b =
      ⟨.error "No result found for search", 0, 0⟩ ∧
    update inst fuse q choose uTags uSecret now =
      ⟨.outputMsg "No result found for search", 0⟩ := by
  constructor <;> simp [delete, update, getSingleFromList, search, hzero]

/-- Witness for C2 at a concrete document and an empty-result matcher. -/
theorem c2_witness :
    delete sampleDoc1 fuseNone [] chooseFirst true true =
      ⟨.error "No result found for search", 0, 0⟩ ∧
    update sampleDoc1 fuseNone [] chooseFirst [['u']] ['v'] 7 =
      ⟨.outputMsg "No result found for search", 0⟩ :=
  c2_not_found_is_a_result sampleDoc1 fuseNone [] chooseFirst true true
    [['u']] ['v'] 7 (by decide)

/-- C4: every mutation change body sets the new version to the replication
engine's history length of the input document plus one, and on any document
of a single lineage the version strictly increases with each committed
change. -/
theorem c4_version_monotone
    {d : Doc} (h : InLineage d) (tags : List Str) (sec fid : Str)
    (e : Entry) (p : EntryPatch) (now : Nat) :
    ((addChange d tags sec fid).version = Automerge.historyLength d + 1 ∧
      d.version < (addChange d tags sec fid).version) ∧
    ((deleteChange d e).version = Automerge.historyLength d + 1 ∧
      d.version < (deleteChange d e).version) ∧
    ((updateChange d e p now).version = Automerge.historyLength d + 1 ∧
      d.version < (updateChange d e p now).version) := by
  have hv := version_eq_historyLength h
  refine ⟨⟨rfl, ?_⟩, ⟨rfl, ?_⟩, ⟨rfl, ?_⟩⟩ <;>
    simp [addChange, deleteChange, updateChange, Automerge.change,
      Automerge.historyLength, hv]

/-- Witness for C4 at the freshly initialized document. -/
theorem c4_witness :
    ((addChange (init ['x'] 0) [['t']] ['s'] ['f']).version =
        Automerge.historyLength (init ['x'] 0) + 1 ∧
      (init ['x'] 0).version < (addChange (init ['x'] 0) [['t']] ['s'] ['f']).version) ∧
    ((deleteChange (init ['x'] 0) sampleE1).version =
        Automerge.historyLength (init ['x'] 0) + 1 ∧
      (init ['x'] 0).version < (deleteChange (init ['x'] 0) sampleE1).version) ∧
    ((updateChange (init ['x'] 0) sampleE1 (formEdited [['u']] ['v']) 7).version =
        Automerge.historyLength (init ['x'] 0) + 1 ∧
      (init ['x'] 0).version <
        (updateChange (init ['x'] 0) sampleE1 (formEdited [['u']] ['v']) 7).version) :=
  c4_version_monotone (InLineage.ofInit ['x'] 0) [['t']] ['s'] ['f']
    sampleE1 (formEdited [['u']] ['v']) 7

/-- C5 counterexample: the add and delete change bodies never write
`updatedAt` (they take no clock at all), so a document whose `updatedAt` is 5
still carries 5 after an add or a delete, and even after an update committed
at time 7 a subsequent add leaves `updatedAt` at 7; the claim instead demands
that every content mutation set `updatedAt` to the time of that mutation,
which fails for every add or delete performed at a time other than the stale
stamp. -/
theorem c5_counterexample :
    (addChange sampleDoc1 [['t']] ['s'] ['9']).updatedAt = sampleDoc1.updatedAt ∧
    (deleteChange sampleDoc1 sampleE1).updatedAt = sampleDoc1.updatedAt ∧
    sampleDoc1.updatedAt = 5 ∧
    (addChange (updateChange sampleDoc1 sampleE1 (formEdited [['u']] ['v']) 7)
      [['t']] ['s'] ['9']).updatedAt = 7 := by
  refine ⟨rfl, rfl, rfl, rfl⟩

/-- C5 (amended): only the update change body sets `updatedAt`, to the
mutation time; add and delete leave `updatedAt` unchanged; and the read-only
list operation applies no transaction. -/
theorem c5_amended_only_update_sets_updatedAt
    (d : Doc) (tags : List Str) (sec fid : Str) (e : Entry) (p : EntryPatch)
    (now : Nat) (inst : Doc) (fuse : List Entry → Str → List Entry)
    (q : Option Str) :
    (updateChange d e p now).updatedAt = now ∧
    (addChange d tags sec fid).updatedAt = d.updatedAt ∧
    (deleteChange d e).updatedAt = d.updatedAt ∧
    (list inst fuse q).2 = 0 := by
  refine ⟨rfl, rfl, rfl, ?_⟩
  cases q <;> rfl

/-- On a found index, the JS replace-splice rewrites exactly the found
position. -/
theorem jsSpliceReplace1_of_findIdx {p : α → Bool} {l : List α} {i : Nat}
    (h : l.findIdx? p = some i) (x : α) :
    jsSpliceReplace1 l (jsFindIndex p l) x = l.take i ++ x :: l.drop (i + 1) := by
  have hi : i < l.length := (List.findIdx?_eq_some_iff_findIdx_eq.mp h).1
  simp [jsSpliceReplace1, jsFindIndex, h, jsStart,
    Nat.min_eq_left (Nat.le_of_lt hi)]

/-- On a found index, the JS remove-splice deletes exactly the found
position. -/
theorem jsSpliceRemove1_of_findIdx {p : α → Bool} {l : List α} {i : Nat}
    (h : l.findIdx? p = some i) :
    jsSpliceRemove1 l (jsFindIndex p l) = l.take i ++ l.drop (i + 1) := by
  have hi : i < l.length := (List.findIdx?_eq_some_iff_findIdx_eq.mp h).1
  simp [jsSpliceRemove1, jsFindIndex, h, jsStart,
    Nat.min_eq_left (Nat.le_of_lt hi)]

/-- When no element of the prefix matches and the appended element does, the
first found index is the appended position. -/
theorem findIdx?_append_last {p : α → Bool} (l : List α) (y : α)
    (h : ∀ x ∈ l, p x = false) (hy : p y = true) :
    (l ++ [y]).findIdx? p = some l.length := by
  induction l with
  | nil => simp [hy]
  | cons a l ih =>
    have ha : p a = false := h a (List.mem_cons_self a l)
    simp [List.findIdx?_cons, ha, List.findIdx?_succ,
      ih fun x hx => h x (List.mem_cons_of_mem a hx)]

/-- C9: deleting the freshly added entry (whose id is fresh for the document)
from the document produced by adding it restores the original `secrets`
content. -/
theorem c9_add_delete_inverse (D : Doc) (tags : List Str) (sec fid : Str)
    (hfresh : fid ∉ D.secrets.map Entry.id) :
    (deleteChange (addChange D tags sec fid) ⟨tags, sec, fid⟩).secrets =
      D.secrets := by
  have hall : ∀ x ∈ D.secrets, (x.id == fid) = false := by
    intro x hx
    have hne : x.id ≠ fid := fun hc => hfresh (hc ▸ List.mem_map_of_mem Entry.id hx)
    simp [hne]
  have hfind : ((D.secrets ++ [⟨tags, sec, fid⟩] : List Entry).findIdx?
      fun item => item.id == fid) = some D.secrets.length :=
    findIdx?_append_last _ _ hall (by simp)
  show jsSpliceRemove1 (D.secrets ++ [⟨tags, sec, fid⟩])
      (jsFindIndex (fun item => item.id == fid) (D.secrets ++ [⟨tags, sec, fid⟩]))
      = D.secrets
  rw [jsSpliceRemove1_of_findIdx hfind, List.take_left,
    List.drop_of_length_le (by simp), List.append_nil]

/-- Witness for C9 at a concrete document and fresh id. -/
theorem c9_witness :
    (deleteChange (addChange sampleDoc1 [['t']] ['s'] ['9']) ⟨[['t']], ['s'], ['9']⟩).secrets =
      sampleDoc1.secrets :=
  c9_add_delete_inverse sampleDoc1 [['t']] ['s'] ['9'] (by decide)

/-- C3: an update of a located entry keeps the entry's id for every
user-supplied edited field set and replaces the entry in place, at the same
position; the edited set produced by the form never carries an id, and
`Object.assign` preserves the original id for every patch that lacks one. -/
theorem c3_update_preserves_identity
    (inst : Doc) (fuse : List Entry → Str → List Entry) (q : Str)
    (choose : List Str → Str) (uTags : List Str) (uSecret : Str) (now : Nat)
    (toUpdate : Entry) (i : Nat)
    (hfound : (getSingleFromList fuse inst.secrets q choose).1 = some toUpdate)
    (hidx : (inst.secrets.findIdx? fun item => item.id == toUpdate.id) = some i) :
    update inst fuse q choose uTags uSecret now =
      ⟨.output (updateChange inst toUpdate (formEdited uTags uSecret) now), 1⟩ ∧
    (updateChange inst toUpdate (formEdited uTags uSecret) now).secrets =
      inst.secrets.take i ++
        objectAssign toUpdate (formEdited uTags uSecret) :: inst.secrets.drop (i + 1) ∧
    (objectAssign toUpdate (formEdited uTags uSecret)).id = toUpdate.id ∧
    (formEdited uTags uSecret).id? = none ∧
    ∀ (e : Entry) (p : EntryPatch), p.id? = none → (objectAssign e p).id = e.id := by
  refine ⟨?_, ?_, rfl, rfl, ?_⟩
  · simp [update, hfound]
  · show jsSpliceReplace1 inst.secrets
        (jsFindIndex (fun item => item.id == toUpdate.id) inst.secrets)
        (objectAssign toUpdate (formEdited uTags uSecret)) = _
    exact jsSpliceReplace1_of_findIdx hidx _
  · intro e p hp
    simp [objectAssign, hp]

/-- Witness for C3 at a concrete document with the edited fields supplying
new tags and a new secret. -/
theorem c3_witness :
    update sampleDoc1 fuseAll [] chooseFirst [['u']] ['v'] 7 =
      ⟨.output (updateChange sampleDoc1 sampleE1 (formEdited [['u']] ['v']) 7), 1⟩ ∧
    (updateChange sampleDoc1 sampleE1 (formEdited [['u']] ['v']) 7).secrets =
      sampleDoc1.secrets.take 0 ++
        objectAssign sampleE1 (formEdited [['u']] ['v']) :: sampleDoc1.secrets.drop 1 ∧
    (objectAssign sampleE1 (formEdited [['u']] ['v'])).id = sampleE1.id ∧
    (formEdited [['u']] ['v']).id? = none ∧
    ∀ (e : Entry) (p : EntryPatch), p.id? = none → (objectAssign e p).id = e.id :=
  c3_update_preserves_identity sampleDoc1 fuseAll [] chooseFirst [['u']] ['v'] 7
    sampleE1 0 (by decide) (by decide)

/-- C6: single-target resolution.  With more than one ranked candidate, the
select prompt presents all candidates rendered as their joined tag strings
and the returned entry is determined by the user's selection; with exactly
one candidate, that candidate is returned directly and no prompt is shown;
with zero candidates, resolution returns nothing and the delete and update
operations report the no-result outcome without applying a transaction. -/
theorem c6_disambiguation
    (inst : Doc) (fuse : List Entry → Str → List Entry) (q : Str)
    (choose : List Str → Str) (a b : Bool) (uTags : List Str) (uSecret : Str)
    (now : Nat) :
    (1 < (search fuse inst.secrets q).length →
      (getSingleFromList fuse inst.secrets q choose).2 =
        some ((search fuse inst.secrets q).map fun r => slugifyTags r.tags) ∧
      (getSingleFromList fuse inst.secrets q choose).1 =
        inst.secrets.find? fun item =>
          choose ((search fuse inst.secrets q).map fun r => slugifyTags r.tags) ==
            slugifyTags item.tags) ∧
    (∀ r, search fuse inst.secrets q = [r] →
      getSingleFromList fuse inst.secrets q choose = (some r, none)) ∧
    (search fuse inst.secrets q = [] →
      (getSingleFromList fuse inst.secrets q choose).1 = none ∧
      delete inst fuse q choose a b =
        ⟨.error "No result found for search", 0, 0⟩ ∧
      update inst fuse q choose uTags uSecret now =
        ⟨.outputMsg "No result found for search", 0⟩) := by
  refine ⟨fun h1 => ?_, fun r hr => ?_, fun h0 => ?_⟩
  · simp [getSingleFromList, h1]
  · simp [getSingleFromList, hr]
  · simp [getSingleFromList, delete, update, h0]

/-- Witness for C6 covering the many-, one- and zero-candidate cases on
concrete inputs. -/
theorem c6_witness :
    ((getSingleFromList fuseAll sampleDoc2.secrets [] chooseFirst).2 =
        some ((search fuseAll sampleDoc2.secrets []).map fun r => slugifyTags r.tags) ∧
      (getSingleFromList fuseAll sampleDoc2.secrets [] chooseFirst).1 =
        sampleDoc2.secrets.find? fun item =>
          chooseFirst ((search fuseAll sampleDoc2.secrets []).map fun r => slugifyTags r.tags) ==
            slugifyTags item.tags) ∧
    getSingleFromList fuseAll sampleDoc1.secrets [] chooseFirst =
      (some sampleE1, none) ∧
    ((getSingleFromList fuseNone sampleDoc1.secrets [] chooseFirst).1 = none ∧
      delete sampleDoc1 fuseNone [] chooseFirst true true =
        ⟨.error "No result found for search", 0, 0⟩ ∧
      update sampleDoc1 fuseNone [] chooseFirst [['u']] ['v'] 7 =
        ⟨.outputMsg "No result found for search", 0⟩) :=
  ⟨(c6_disambiguation sampleDoc2 fuseAll [] chooseFirst true true [['u']] ['v'] 7).1
      (by decide),
    (c6_disambiguation sampleDoc1 fuseAll [] chooseFirst true true [['u']] ['v'] 7).2.1
      sampleE1 (by decide),
    (c6_disambiguation sampleDoc1 fuseNone [] chooseFirst true true [['u']] ['v'] 7).2.2
      (by decide)⟩

/-- C10: after a multi-candidate selection the chosen candidate is looked up
in the full entry list by equality of its joined tag string; consequently,
for a list holding two distinct entries with identical tag sequences that
both match the query, resolution returns the first of them whichever
candidate the user selects. -/
theorem c10_lookup_by_joined_tags :
    (∀ (fuse : List Entry → Str → List Entry) (lst : List Entry) (q : Str)
      (choose : List Str → Str), 1 < (search fuse lst q).length →
      (getSingleFromList fuse lst q choose).1 =
        lst.find? fun item =>
          choose ((search fuse lst q).map fun r => slugifyTags r.tags) ==
            slugifyTags item.tags) ∧
    ∀ (x y : Entry) (fuse : List Entry → Str → List Entry) (q : Str)
      (choose : List Str → Str), x.id ≠ y.id → x.tags = y.tags →
      search fuse [x, y] q = [x, y] →
      choose [slugifyTags x.tags, slugifyTags y.tags] ∈
        [slugifyTags x.tags, slugifyTags y.tags] →
      (getSingleFromList fuse [x, y] q choose).1 = some x := by
  constructor
  · intro fuse lst q choose h1
    simp [getSingleFromList, h1]
  · intro x y fuse q choose hid htags hres hmem
    have hslug : slugifyTags y.tags = slugifyTags x.tags := by rw [htags]
    have hchosen : choose [slugifyTags x.tags, slugifyTags y.tags] =
        slugifyTags x.tags := by
      rcases List.mem_cons.mp hmem with h | h
      · exact h
      · rw [List.mem_singleton.mp h, hslug]
    simp [getSingleFromList, hres, hchosen]

/-- Witness for C10: with two entries sharing tags and differing in id, the
selection of the second (last) candidate still resolves to the first
entry. -/
theorem c10_witness :
    ((getSingleFromList fuseAll sampleDoc2.secrets [] chooseLast).1 =
      sampleDoc2.secrets.find? fun item =>
        chooseLast ((search fuseAll sampleDoc2.secrets []).map fun r => slugifyTags r.tags) ==
          slugifyTags item.tags) ∧
    (getSingleFromList fuseAll [sampleE1, sampleE2] [] chooseLast).1 =
      some sampleE1 :=
  ⟨c10_lookup_by_joined_tags.1 fuseAll sampleDoc2.secrets [] chooseLast (by decide),
    c10_lookup_by_joined_tags.2 sampleE1 sampleE2 fuseAll [] chooseLast
      (by decide) (by decide) (by decide) (by decide)⟩

/-- The scanner emits a separator-free input as a single field appended to
the accumulator. -/
theorem splitSepAux_no_sep (t : Str) : ∀ acc : Str,
    (∀ c ∈ t, isSep c = false) → splitSepAux acc t = [acc.reverse ++ t] := by
  induction t with
  | nil => intro acc _; simp [splitSepAux]
  | cons c t ih =>
    intro acc h
    have hc : isSep c = false := h c (List.mem_cons_self c t)
    rw [splitSepAux, if_neg (by simp [hc]),
      ih (c :: acc) fun d hd => h d (List.mem_cons_of_mem c hd)]
    simp

/-- The scanner breaks at the joining separator after a separator-free
field. -/
theorem splitSepAux_sep_break (t : Str) : ∀ acc rest : Str,
    (∀ c ∈ t, isSep c = false) →
    splitSepAux acc (t ++ ',' :: ' ' :: rest) =
      (acc.reverse ++ t) :: splitSepAux [] (rest.dropWhile isSep) := by
  induction t with
  | nil =>
    intro acc rest _
    have h1 : isSep ',' = true := by decide
    have h2 : isSep ' ' = true := by decide
    rw [List.nil_append, splitSepAux, if_pos (by simp [h1]),
      List.dropWhile_cons_of_pos h2]
    simp
  | cons c t ih =>
    intro acc rest h
    have hc : isSep c = false := h c (List.mem_cons_self c t)
    rw [List.cons_append, splitSepAux, if_neg (by simp [hc]),
      ih (c :: acc) rest fun d hd => h d (List.mem_cons_of_mem c hd)]
    simp

/-- A joined nonempty-headed tag sequence starts with the head tag's first
character. -/
theorem slugifyTags_head (t : Str) (ts : List Str) (c : Char) (r : Str)
    (ht : t = c :: r) : ∃ s, slugifyTags (t :: ts) = c :: s := by
  cases ts with
  | nil => exact ⟨r, by simp [slugifyTags, ht]⟩
  | cons u us => exact ⟨r ++ ',' :: ' ' :: slugifyTags (u :: us), by simp [slugifyTags, ht]⟩

/-- C7 counterexample: the empty tag sequence joins to the empty string,
which JS split turns into a one-element list holding the empty string, not
into the empty sequence; the round trip therefore fails at `T = []` although
no tag of `T` contains a separator character. -/
theorem c7_counterexample :
    getTagsFromString (slugifyTags ([] : List Str)) ≠ ([] : List Str) := by
  simp [getTagsFromString, slugifyTags, splitSepAux]

/-- C7 (amended): for every nonempty tag sequence whose tags are all
nonempty and free of separator characters, splitting the joined
representation recovers the sequence exactly. -/
theorem c7_amended_tag_round_trip : ∀ T : List Str, T ≠ [] →
    (∀ t ∈ T, t ≠ [] ∧ ∀ c ∈ t, isSep c = false) →
    getTagsFromString (slugifyTags T) = T := by
  intro T
  induction T with
  | nil => intro h _; exact absurd rfl h
  | cons t T ih =>
    intro _ h
    obtain ⟨-, hsep⟩ := h t (List.mem_cons_self t T)
    cases T with
    | nil =>
      show splitSepAux [] (slugifyTags [t]) = [t]
      rw [show slugifyTags [t] = t from rfl, splitSepAux_no_sep t [] hsep]
      rfl
    | cons t2 ts =>
      obtain ⟨ht2, _⟩ := h t2 (List.mem_cons_of_mem t (List.mem_cons_self t2 ts))
      obtain ⟨c, r, hcr⟩ : ∃ c r, t2 = c :: r := by
        cases t2 with
        | nil => exact absurd rfl ht2
        | cons c r => exact ⟨c, r, rfl⟩
      have hc : isSep c = false :=
        (h t2 (List.mem_cons_of_mem t (List.mem_cons_self t2 ts))).2 c
          (hcr ▸ List.mem_cons_self c r)
      obtain ⟨s, hs⟩ := slugifyTags_head t2 ts c r hcr
      show splitSepAux [] (slugifyTags (t :: t2 :: ts)) = t :: t2 :: ts
      rw [show slugifyTags (t :: t2 :: ts) = t ++ ',' :: ' ' :: slugifyTags (t2 :: ts)
          from rfl,
        splitSepAux_sep_break t [] (slugifyTags (t2 :: ts)) hsep, hs,
        List.dropWhile_cons_of_neg (by simp [hc]), ← hs]
      exact congrArg (List.cons t)
        (ih (List.cons_ne_nil t2 ts) fun u hu => h u (List.mem_cons_of_mem t hu))

/-- Witness for C7 (amended) at a concrete two-tag sequence. -/
theorem c7_witness :
    getTagsFromString (slugifyTags [['a'], ['b', 'c']]) = [['a'], ['b', 'c']] :=
  c7_amended_tag_round_trip [['a'], ['b', 'c']] (by decide) (by decide)

/-- The last element is unchanged by dropping a nonempty head. -/
theorem getLast?_cons_ne_nil (a : α) (l : List α) (h : l ≠ []) :
    (a :: l).getLast? = l.getLast? := by
  cases l with
  | nil => exact absurd rfl h
  | cons b t => exact List.getLast?_cons_cons

/-- Dropping a prefix keeps the last element when the result is nonempty. -/
theorem getLast?_dropWhile (p : α → Bool) : ∀ l : List α,
    l.dropWhile p ≠ [] → (l.dropWhile p).getLast? = l.getLast? := by
  intro l
  induction l with
  | nil => intro h; exact absurd rfl h
  | cons a l ih =>
    intro h
    rw [List.dropWhile_cons] at h ⊢
    by_cases hp : p a = true
    · rw [if_pos hp] at h ⊢
      have hl : l ≠ [] := by
        intro he
        exact h (by simp [he])
      rw [getLast?_cons_ne_nil a l hl]
      exact ih h
    · rw [if_neg hp]

/-- A nonempty result of dropping a prefix starts with a non-matching
element. -/
theorem dropWhile_ne_nil_shape (p : α → Bool) : ∀ l : List α,
    l.dropWhile p ≠ [] →
    ∃ c t, l.dropWhile p = c :: t ∧ p c = false := by
  intro l
  induction l with
  | nil => intro h; exact absurd rfl h
  | cons a l ih =>
    intro h
    rw [List.dropWhile_cons] at h ⊢
    by_cases hp : p a = true
    · rw [if_pos hp] at h ⊢
      exact ih h
    · rw [if_neg hp]
      exact ⟨a, l, rfl, Bool.eq_false_iff.mpr hp⟩

/-- The scanner never emits an empty field when the input neither begins nor
ends with a separator (and the running accumulator is nonempty whenever the
remaining input could be empty or start with a separator). -/
theorem splitSepAux_no_nil : ∀ (n : Nat) (s acc : Str), s.length ≤ n →
    (∀ d, s.getLast? = some d → isSep d = false) →
    (acc = [] → ∃ c t, s = c :: t ∧ isSep c = false) →
    ([] : Str) ∉ splitSepAux acc s := by
  intro n
  induction n with
  | zero =>
    intro s acc hlen hlast hacc
    have hs : s = [] := List.length_eq_zero.mp (Nat.le_zero.mp hlen)
    subst hs
    rw [splitSepAux]
    intro hmem
    obtain ⟨c, t, hct, -⟩ := hacc (by
      simpa using (List.mem_singleton.mp hmem).symm)
    exact List.noConfusion hct
  | succ n ih =>
    intro s acc hlen hlast hacc
    cases s with
    | nil =>
      rw [splitSepAux]
      intro hmem
      obtain ⟨c, t, hct, -⟩ := hacc (by
        simpa using (List.mem_singleton.mp hmem).symm)
      exact List.noConfusion hct
    | cons c rest =>
      have hlen' : rest.length ≤ n := Nat.le_of_succ_le_succ hlen
      by_cases hc : isSep c = true
      · have haccne : acc ≠ [] := by
          intro he
          obtain ⟨c', t', hct, hc'⟩ := hacc he
          obtain ⟨rfl, -⟩ : c' = c ∧ t' = rest := by
            injection hct with h1 h2; exact ⟨h1.symm, h2.symm⟩
          rw [hc'] at hc
          exact Bool.noConfusion hc
        rw [splitSepAux, if_pos (by simp [hc])]
        intro hmem
        rcases List.mem_cons.mp hmem with he | hrec
        · exact haccne (by simpa using he.symm)
        · have hdrop : rest.dropWhile isSep ≠ [] := by
            intro hnil
            have hall : ∀ x ∈ rest, isSep x = true := by
              intro x hx
              exact List.dropWhile_eq_nil_iff.mp hnil x hx
            cases rest with
            | nil =>
              have := hlast c rfl
              rw [hc] at this
              exact Bool.noConfusion this
            | cons r rs =>
              obtain ⟨d, hd⟩ := Option.isSome_iff_exists.mp
                (List.getLast?_isSome.mpr (List.cons_ne_nil r rs))
              have hdmem : d ∈ r :: rs := List.mem_of_getLast?_eq_some hd
              have hdlast : (c :: r :: rs).getLast? = some d := by
                rw [getLast?_cons_ne_nil c (r :: rs) (List.cons_ne_nil r rs)]
                exact hd
              have := hlast d hdlast
              rw [hall d hdmem] at this
              exact Bool.noConfusion this
          obtain ⟨c', t', hct', hc'⟩ := dropWhile_ne_nil_shape isSep rest hdrop
          have hrestne : rest ≠ [] := by
            intro he; subst he; exact hdrop rfl
          refine ih (rest.dropWhile isSep) [] ?_ ?_ (fun _ => ⟨c', t', hct', hc'⟩) hrec
          · exact Nat.le_trans (len_dropWhile_le isSep rest) hlen'
          · intro d hd
            rw [getLast?_dropWhile isSep rest hdrop,
              ← getLast?_cons_ne_nil c rest hrestne] at hd
            exact hlast d hd
      · rw [splitSepAux, if_neg (by simp [hc])]
        refine ih rest (c :: acc) hlen' ?_ (fun he => (List.cons_ne_nil c acc he).elim)
        intro d hd
        have hrestne : rest ≠ [] := by
          intro he
          subst he
          simp at hd
        rw [← getLast?_cons_ne_nil c rest hrestne] at hd
        exact hlast d hd

/-- C8 counterexample: the input `a,` (a trailing separator) splits into the
tag `a` followed by an empty tag, so the split result is not free of empty
tags for every input. -/
theorem c8_counterexample : ([] : Str) ∈ getTagsFromString ['a', ','] := by
  have ha : isSep 'a' = false := by decide
  have hc : isSep ',' = true := by decide
  rw [getTagsFromString, splitSepAux, if_neg (by simp [ha]),
    splitSepAux, if_pos (by simp [hc])]
  simp [splitSepAux]

/-- C8 (amended): splitting removes no empty fields in general, but whenever
the input is nonempty and neither its first nor its last character is a
separator, the resulting tag sequence contains no empty tags; inputs with
leading or trailing separators gain empty tags at the corresponding ends. -/
theorem c8_amended_no_empty_tags (s : Str) (c : Char) (t : Str)
    (hs : s = c :: t) (hc : isSep c = false)
    (hlast : ∀ d, s.getLast? = some d → isSep d = false) :
    ([] : Str) ∉ getTagsFromString s :=
  splitSepAux_no_nil s.length s [] (Nat.le_refl _) hlast fun _ => ⟨c, t, hs, hc⟩

/-- Witness for C8 (amended) at the concrete input `ab`. -/
theorem c8_witness : ([] : Str) ∉ getTagsFromString ['a', 'b'] :=
  c8_amended_no_empty_tags ['a', 'b'] 'a' ['b'] rfl (by decide) (by decide)

end DogTag
